import Mathlib

/-!
Verification of the screenshot renamer (`renamer.py`).

The development shallowly embeds the program's components over `List Char`
strings and a finite-directory filesystem model:

* `sanitize_filename` — the pure text sanitizer (steps 1-8 plus fallback);
* `get_unique_path` — the collision-avoiding path resolver;
* `rename_screenshot` — the per-file rename pipeline, with the inference
  call, the rename syscall outcome and the current date as explicit inputs;
* `handle_file` / `runSession` — the watchdog handler with its
  processed-set, and `process_existing_list` — the batch driver's listing.

Characters are modelled at the ASCII level (Python's Unicode case table and
whitespace class restricted to ASCII); this does not affect any of the
properties proved below, which only distinguish ASCII characters.
-/

/-- Whitespace characters recognised by the sanitizer (space, tab, newline,
vertical tab, form feed, carriage return — the model of Python whitespace). -/
def isPySpace (c : Char) : Bool :=
  c = ' ' || c = Char.ofNat 9 || c = Char.ofNat 10 || c = Char.ofNat 11 ||
  c = Char.ofNat 12 || c = Char.ofNat 13

/-- Characters replaced by hyphens in sanitizer step 4: whitespace or
underscore (the regex class of whitespace and underscore). -/
def isSpaceLike (c : Char) : Bool := isPySpace c || c = '_'

/-- Quote characters stripped once from each edge by sanitizer step 2:
double quote (34), single quote (39), backtick (96). -/
def isQuoteChar (c : Char) : Bool :=
  c = Char.ofNat 34 || c = Char.ofNat 39 || c = Char.ofNat 96

/-- Model of Python `str.strip()`: drop leading and trailing whitespace. -/
def pyStrip (l : List Char) : List Char :=
  ((l.dropWhile isPySpace).reverse.dropWhile isPySpace).reverse

/-- Drop the last character when it satisfies `p`, else keep the list. -/
def dropLastIf (p : Char → Bool) (l : List Char) : List Char :=
  match l.reverse with
  | [] => []
  | c :: rest => if p c then rest.reverse else l

/-- Sanitizer step 2, the substitution deleting one leading quote character
and one trailing quote character (each at most once). -/
def stripEdgeQuotes (l : List Char) : List Char :=
  dropLastIf isQuoteChar
    (match l with
     | [] => []
     | c :: rest => if isQuoteChar c then rest else c :: rest)

/-- The boilerplate phrases deleted at the start of the text, in the order
the alternation tries them. -/
def boilerplate : List (List Char) :=
  ["filename:".data, "description:".data, "here is".data, "the filename is".data]

/-- Sanitizer step 3: delete the first matching boilerplate phrase at the
start of the text, together with the whitespace following it; the anchored
substitution applies at most once. The input is already lowercased, so
matching the lowercase phrases directly models the case-insensitive flag. -/
def stripBoilerplate (l : List Char) : List Char :=
  match boilerplate.find? (fun p => p.isPrefixOf l) with
  | some p => (l.drop p.length).dropWhile isPySpace
  | none => l

/-- Worker for step 4; the flag records whether the previous character was
part of a whitespace-or-underscore run already replaced by a hyphen. -/
def squashAux : Bool → List Char → List Char
  | _, [] => []
  | inRun, c :: rest =>
    if isSpaceLike c then
      if inRun then squashAux true rest else '-' :: squashAux true rest
    else c :: squashAux false rest

/-- Sanitizer step 4: replace each run of whitespace or underscores with a
single hyphen. -/
def squashSpaceRuns (l : List Char) : List Char := squashAux false l

/-- Lowercase ASCII letter or digit. -/
def isAlnumLower (c : Char) : Bool :=
  ('a' ≤ c && c ≤ 'z') || ('0' ≤ c && c ≤ '9')

/-- Characters kept by sanitizer step 5: lowercase letters, digits, hyphen. -/
def isKeep (c : Char) : Bool := isAlnumLower c || c = '-'

/-- Worker for step 6; the flag records whether the previous output
character was a hyphen. -/
def collapseAux : Bool → List Char → List Char
  | _, [] => []
  | prev, c :: rest =>
    if c = '-' then
      if prev then collapseAux true rest else '-' :: collapseAux true rest
    else c :: collapseAux false rest

/-- Sanitizer step 6: collapse each run of hyphens to a single hyphen. -/
def collapseHyphens (l : List Char) : List Char := collapseAux false l

/-- Model of Python `str.strip(a)`: drop the character `a` from both ends. -/
def stripEdges (a : Char) (l : List Char) : List Char :=
  ((l.dropWhile (· = a)).reverse.dropWhile (· = a)).reverse

/-- Model of Python `s.rsplit('-', 1)[0]`: everything before the last
hyphen, or the whole string when it has no hyphen. -/
def beforeLastHyphen (l : List Char) : List Char :=
  if '-' ∈ l then ((l.reverse.dropWhile (fun c => c ≠ '-')).tail).reverse else l

/-- Sanitizer steps 1-7: lowercase and trim, strip edge quotes, strip one
boilerplate phrase, hyphenate whitespace runs, filter the character set,
collapse hyphen runs, trim edge hyphens. -/
def preTruncate (text : List Char) : List Char :=
  stripEdges '-'
    (collapseHyphens
      ((squashSpaceRuns
        (stripBoilerplate (stripEdgeQuotes (pyStrip (text.map Char.toLower))))).filter isKeep))

/-- The fallback stem returned when everything was sanitized away. -/
def fallbackStem : List Char := "screenshot".data

/-- Model of `sanitize_filename(text, max_length)`: steps 1-7, then
truncation to `maxLength` cut back at the last hyphen (step 8), then the
fallback for an empty result (step 9). -/
def sanitize_filename (text : List Char) (maxLength : Nat) : List Char :=
  let t := preTruncate text
  let t8 := if maxLength < t.length then beforeLastHyphen (t.take maxLength) else t
  if t8 = [] then fallbackStem else t8

/-- Grammar reading of the regular expression matching a valid stem: one or
more lowercase alphanumerics, then any number of groups consisting of a
hyphen followed by one or more lowercase alphanumerics. -/
inductive StemMatch : List Char → Prop where
  | single (s : List Char) (hne : s ≠ []) (hs : ∀ c ∈ s, isAlnumLower c = true) :
      StemMatch s
  | group (s : List Char) (rest : List Char) (hne : s ≠ [])
      (hs : ∀ c ∈ s, isAlnumLower c = true) (hr : StemMatch rest) :
      StemMatch (s ++ '-' :: rest)

/-- No two adjacent hyphens occur in the list. -/
def NoDouble (l : List Char) : Prop :=
  l.Chain' (fun a b => ¬(a = '-' ∧ b = '-'))

/-- Decimal digits of a number, as written by Python's str(): the character
list underlying `Nat.repr`. -/
def natChars (n : Nat) : List Char := Nat.toDigits 10 n

/-- Value of a decimal digit character. -/
def digitVal (c : Char) : Nat := c.toNat - '0'.toNat

/-- Value of a big-endian string of decimal digit characters. -/
def strVal (l : List Char) : Nat := l.foldl (fun a c => 10 * a + digitVal c) 0

/-- A path in the model: the watched directory it lives in, and its name. -/
structure FsPath where
  parent : List Char
  name : List Char
  deriving DecidableEq

/-- Model of pathlib's split of a name into stem and suffix: the name is
split at its last dot when that dot is at an interior position (neither the
first nor the last character); otherwise the suffix is empty. -/
def splitExt (name : List Char) : List Char × List Char :=
  if '.' ∈ name then
    let after := name.reverse.takeWhile (fun c => c ≠ '.')
    let i := name.length - 1 - after.length
    if 0 < i ∧ i < name.length - 1 then (name.take i, name.drop i) else (name, [])
  else (name, [])

/-- Model of `Path.stem`. -/
def pathStem (name : List Char) : List Char := (splitExt name).1

/-- Model of `Path.suffix`. -/
def pathSuffix (name : List Char) : List Char := (splitExt name).2

/-- One candidate of the collision loop: `{stem}-{counter}{suffix}` in the
same directory. -/
def counterCand (parent stem sfx : List Char) (k : Nat) : FsPath :=
  ⟨parent, stem ++ ('-' :: (natChars k ++ sfx))⟩

/-- The collision loop of get_unique_path, trying counters `k`, `k+1`, ...:
it re-checks existence of each candidate against the directory `fs` and
returns the first unused one. A fuel argument makes the recursion
structural; `findFree_some` below shows `fs.length + 1` attempts always
succeed, so the `none` case of the caller is unreachable. -/
def findFree (fs : List FsPath) (parent stem sfx : List Char) : Nat → Nat → Option FsPath
  | 0, _ => none
  | fuel + 1, k =>
    let cand := counterCand parent stem sfx k
    if cand ∈ fs then findFree fs parent stem sfx fuel (k + 1) else some cand

/-- Model of get_unique_path over a finite directory `fs`: return the base
path when no file exists at it, else run the collision loop from counter 1. -/
def get_unique_path (fs : List FsPath) (base : FsPath) : FsPath :=
  if base ∈ fs then
    match findFree fs base.parent (pathStem base.name) (pathSuffix base.name)
        (fs.length + 1) 1 with
    | some p => p
    | none => base
  else base

/-- A calendar date as supplied by datetime.now(); datetime years lie in
1..9999, months and days are rendered with two digits. -/
structure PyDate where
  year : Nat
  month : Nat
  day : Nat
  deriving DecidableEq

/-- Zero-padded decimal rendering of width `w`, the model of strftime's
padded numeric directives. -/
def padNum (w n : Nat) : List Char :=
  List.replicate (w - (natChars n).length) '0' ++ natChars n

/-- Model of `strftime('%Y-%m-%d')`. -/
def renderDate (d : PyDate) : List Char :=
  padNum 4 d.year ++ ('-' :: (padNum 2 d.month ++ ('-' :: padNum 2 d.day)))

/-- The allow-listed image extensions. -/
def IMAGE_EXTENSIONS : List (List Char) :=
  [".png".data, ".jpg".data, ".jpeg".data, ".webp".data, ".gif".data, ".bmp".data]

/-- Lowercasing of a character list. -/
def lowerChars (l : List Char) : List Char := l.map Char.toLower

/-- Test `name.suffix.lower() in IMAGE_EXTENSIONS`. -/
def isAllowedImage (name : List Char) : Bool :=
  decide (lowerChars (pathSuffix name) ∈ IMAGE_EXTENSIONS)

/-- The processed-name pattern: a name beginning with four digits, a
hyphen, two digits, a hyphen, two digits and an underscore. -/
def matchesProcessedPattern (name : List Char) : Bool :=
  match name with
  | y1 :: y2 :: y3 :: y4 :: h1 :: m1 :: m2 :: h2 :: d1 :: d2 :: u :: _ =>
    y1.isDigit && y2.isDigit && y3.isDigit && y4.isDigit && h1 = '-' &&
    m1.isDigit && m2.isDigit && h2 = '-' && d1.isDigit && d2.isDigit && u = '_'
  | _ => false

/-- Model of analyze_image: the inference call either raises or returns the
description text; an exception is caught and becomes the empty string. -/
def analyze_image (apiResult : Except Unit (List Char)) : List Char :=
  match apiResult with
  | Except.error _ => []
  | Except.ok content => content

/-- Observable filesystem effects of the pipeline. -/
inductive FsAction where
  | rename (old target : FsPath)
  | writeMetadata (p : FsPath) (comment : List Char)
  | report (target : FsPath)
  deriving DecidableEq

/-- The date-prefixed candidate filename built by the pipeline:
`{date}_{stem}{ext}`. -/
def candidateName (date : PyDate) (stem ext : List Char) : List Char :=
  renderDate date ++ ('_' :: (stem ++ ext))

/-- The final rename target of the pipeline: the candidate name, in the
file's own directory, resolved for uniqueness. -/
def renameTarget (fs : List FsPath) (p : FsPath) (description : List Char)
    (date : PyDate) : FsPath :=
  get_unique_path fs
    ⟨p.parent, candidateName date (sanitize_filename description 60)
      (lowerChars (pathSuffix p.name))⟩

/-- Result of one pipeline run: the returned boolean, the directory
afterwards, and the trace of filesystem effects. -/
structure RenameResult where
  success : Bool
  fs : List FsPath
  actions : List FsAction
  deriving DecidableEq

/-- Model of rename_screenshot: analyze, bail out on an empty description,
sanitize, build the dated name, resolve uniqueness, then either report
(dry run), fail (the rename raised, oracle `renameFails`), or rename and
best-effort write the description as metadata. -/
def rename_screenshot (fs : List FsPath) (p : FsPath) (apiResult : Except Unit (List Char))
    (date : PyDate) (dryRun : Bool) (renameFails : Bool) : RenameResult :=
  let description := analyze_image apiResult
  if description = [] then ⟨false, fs, []⟩
  else
    let target := renameTarget fs p description date
    if dryRun then ⟨true, fs, [FsAction.report target]⟩
    else if renameFails then ⟨false, fs, []⟩
    else ⟨true, target :: fs.erase p,
      [FsAction.rename p target, FsAction.writeMetadata target description]⟩

/-- Steps taken by the watcher's handler for one event. -/
inductive WAction where
  | add (p : FsPath)
  | debounce
  | skipMissing
  | invoke (p : FsPath)
  deriving DecidableEq

/-- Model of ScreenshotHandler.handle_file: skip non-images, skip paths
already in the processed set, skip date-prefixed names; otherwise add the
path to the processed set, sleep the debounce delay, re-check existence
(`stillThere`), and run the pipeline once. The pipeline's boolean result
`outcome` is discarded by the handler. -/
def handle_file (processed : List FsPath) (p : FsPath) (stillThere : Bool)
    (outcome : Bool) : List FsPath × List WAction :=
  if !isAllowedImage p.name then (processed, [])
  else if p ∈ processed then (processed, [])
  else if matchesProcessedPattern p.name then (processed, [])
  else
    let processed' := p :: processed
    if stillThere then (processed', [WAction.add p, WAction.debounce, WAction.invoke p])
    else (processed', [WAction.add p, WAction.debounce, WAction.skipMissing])

/-- One filesystem event observed during a watch session, together with the
oracle answers the handler will see for it. -/
structure WatchEvent where
  path : FsPath
  stillThere : Bool
  outcome : Bool
  deriving DecidableEq

/-- Fold the handler over a session's events from a given initial processed
set, collecting the action trace. -/
def runSession (processed : List FsPath) : List WatchEvent → List WAction
  | [] => []
  | e :: es =>
    let r := handle_file processed e.path e.stillThere e.outcome
    r.2 ++ runSession r.1 es

/-- Number of pipeline invocations for a given path in a trace. -/
def countInvocations (acts : List WAction) (p : FsPath) : Nat :=
  acts.countP (fun a => a == WAction.invoke p)

/-- A directory entry as seen by the batch driver. -/
structure DirEntry where
  path : FsPath
  isFile : Bool
  deriving DecidableEq

/-- Model of the list comprehension in process_existing: regular files with
an allow-listed extension whose name is not date-prefixed. -/
def process_existing_list (entries : List DirEntry) : List DirEntry :=
  entries.filter (fun f =>
    f.isFile && (isAllowedImage f.path.name && !matchesProcessedPattern f.path.name))

theorem take_isPrefix (n : Nat) (l : List Char) : l.take n <+: l :=
  ⟨l.drop n, l.take_append_drop n⟩

theorem head?_dropWhile_ne {p : Char → Bool} {l : List Char} {c : Char}
    (h : (l.dropWhile p).head? = some c) : p c = false := by
  have h2 := List.head?_dropWhile_not p l
  rw [h] at h2
  exact h2

theorem prefix_head? {l r : List Char} (h : r <+: l) (hne : r ≠ []) :
    l.head? = r.head? := by
  obtain ⟨t, ht⟩ := h
  rw [← ht, List.head?_append_of_ne_nil r hne]

theorem stripEdges_decomp (a : Char) (l : List Char) :
    ∃ u v, l = u ++ (stripEdges a l ++ v) := by
  have hu' : l.dropWhile (fun c => c = a) <:+ l := List.dropWhile_suffix _
  obtain ⟨u, hu⟩ := hu'
  have hw' : (l.dropWhile (fun c => c = a)).reverse.dropWhile (fun c => c = a) <:+
      (l.dropWhile (fun c => c = a)).reverse := List.dropWhile_suffix _
  obtain ⟨w, hw⟩ := hw'
  refine ⟨u, w.reverse, ?_⟩
  have h2 := congrArg List.reverse hw
  simp only [List.reverse_append, List.reverse_reverse] at h2
  calc l = u ++ l.dropWhile (fun c => c = a) := hu.symm
    _ = u ++ (stripEdges a l ++ w.reverse) := by rw [← h2]; rfl

theorem stripEdges_subset (a : Char) (l : List Char) {c : Char}
    (h : c ∈ stripEdges a l) : c ∈ l := by
  obtain ⟨u, v, huv⟩ := stripEdges_decomp a l
  rw [huv]
  simp only [List.mem_append]
  exact Or.inr (Or.inl h)

theorem stripEdges_chain' {R : Char → Char → Prop} {l : List Char} (a : Char)
    (h : l.Chain' R) : (stripEdges a l).Chain' R := by
  obtain ⟨u, v, huv⟩ := stripEdges_decomp a l
  exact List.Chain'.infix (huv ▸ h) ⟨u, v, by simp⟩

theorem stripEdges_isPrefixOf_dropWhile (a : Char) (l : List Char) :
    stripEdges a l <+: l.dropWhile (fun c => c = a) := by
  have hw' : (l.dropWhile (fun c => c = a)).reverse.dropWhile (fun c => c = a) <:+
      (l.dropWhile (fun c => c = a)).reverse := List.dropWhile_suffix _
  obtain ⟨w, hw⟩ := hw'
  have h2 := congrArg List.reverse hw
  simp only [List.reverse_append, List.reverse_reverse] at h2
  exact ⟨w.reverse, h2⟩

theorem stripEdges_head?_ne (a : Char) (l : List Char) {c : Char}
    (h : (stripEdges a l).head? = some c) : c ≠ a := by
  have hne : stripEdges a l ≠ [] := by
    intro hnil; rw [hnil] at h; simp at h
  have hp := prefix_head? (stripEdges_isPrefixOf_dropWhile a l) hne
  rw [h] at hp
  have := head?_dropWhile_ne hp
  simpa using this

theorem stripEdges_getLast?_ne (a : Char) (l : List Char) {c : Char}
    (h : (stripEdges a l).getLast? = some c) : c ≠ a := by
  have h2 : ((l.dropWhile (fun c => c = a)).reverse.dropWhile (fun c => c = a)).head?
      = some c := by
    rw [← h]; simp [stripEdges]
  have := head?_dropWhile_ne h2
  simpa using this

theorem mem_collapseAux {c : Char} : ∀ (b : Bool) (l : List Char),
    c ∈ collapseAux b l → c ∈ l ∨ c = '-' := by
  intro b l
  induction l generalizing b with
  | nil => intro h; cases h
  | cons a t ih =>
    intro h
    by_cases ha : a = '-'
    · subst ha
      cases b with
      | true =>
        simp only [collapseAux, if_pos rfl, if_pos] at h
        rcases ih true h with h2 | h2
        · exact Or.inl (List.mem_cons_of_mem _ h2)
        · exact Or.inr h2
      | false =>
        simp only [collapseAux, if_pos rfl] at h
        rcases List.mem_cons.1 h with h2 | h2
        · exact Or.inr h2
        · rcases ih true h2 with h3 | h3
          · exact Or.inl (List.mem_cons_of_mem _ h3)
          · exact Or.inr h3
    · simp only [collapseAux, if_neg ha] at h
      rcases List.mem_cons.1 h with h2 | h2
      · exact Or.inl (h2 ▸ List.mem_cons_self a t)
      · rcases ih false h2 with h3 | h3
        · exact Or.inl (List.mem_cons_of_mem _ h3)
        · exact Or.inr h3

theorem collapseAux_true_head?_ne {c : Char} : ∀ l : List Char,
    (collapseAux true l).head? = some c → c ≠ '-' := by
  intro l
  induction l with
  | nil => intro h; simp [collapseAux] at h
  | cons a t ih =>
    intro h
    by_cases ha : a = '-'
    · subst ha
      simp only [collapseAux, if_pos rfl, if_pos] at h
      exact ih h
    · simp only [collapseAux, if_neg ha, List.head?_cons, Option.some.injEq] at h
      exact h ▸ ha

theorem noDouble_collapseAux : ∀ (b : Bool) (l : List Char), NoDouble (collapseAux b l) := by
  intro b l
  induction l generalizing b with
  | nil => simp [NoDouble, collapseAux]
  | cons a t ih =>
    by_cases ha : a = '-'
    · subst ha
      cases b with
      | true =>
        simp only [collapseAux, if_pos rfl, if_pos]
        exact ih true
      | false =>
        have he : collapseAux false ('-' :: t) = '-' :: collapseAux true t := by
          simp [collapseAux]
        rw [he, NoDouble, List.chain'_cons']
        refine ⟨?_, ih true⟩
        intro y hy
        exact fun hc => collapseAux_true_head?_ne t hy hc.2
    · simp only [collapseAux, if_neg ha]
      rw [NoDouble, List.chain'_cons']
      refine ⟨?_, ih false⟩
      intro y hy
      exact fun hc => ha hc.1

theorem preTruncate_subset (text : List Char) {c : Char}
    (h : c ∈ preTruncate text) : isKeep c = true := by
  have h1 := stripEdges_subset '-' _ h
  rcases mem_collapseAux false _ h1 with h2 | h2
  · exact List.of_mem_filter h2
  · subst h2; rfl

theorem preTruncate_noDouble (text : List Char) : NoDouble (preTruncate text) :=
  stripEdges_chain' '-' (noDouble_collapseAux false _)

theorem preTruncate_head?_ne (text : List Char) {c : Char}
    (h : (preTruncate text).head? = some c) : c ≠ '-' :=
  stripEdges_head?_ne '-' _ h

theorem preTruncate_getLast?_ne (text : List Char) {c : Char}
    (h : (preTruncate text).getLast? = some c) : c ≠ '-' :=
  stripEdges_getLast?_ne '-' _ h

theorem dropWhile_ne_hyphen_cons {m : List Char} (h : '-' ∈ m) :
    ∃ r, m.dropWhile (fun c => c ≠ '-') = '-' :: r := by
  induction m with
  | nil => cases h
  | cons a t ih =>
    by_cases ha : a = '-'
    · subst ha; exact ⟨t, by simp [List.dropWhile]⟩
    · have hm : '-' ∈ t := by
        rcases List.mem_cons.1 h with h2 | h2
        · exact absurd h2.symm ha
        · exact h2
      obtain ⟨r, hr⟩ := ih hm
      refine ⟨r, ?_⟩
      rw [List.dropWhile_cons_of_pos (by simp [ha]), hr]

theorem beforeLastHyphen_eq_self {l : List Char} (h : '-' ∉ l) :
    beforeLastHyphen l = l := by
  simp [beforeLastHyphen, h]

theorem beforeLastHyphen_decomp {l : List Char} (h : '-' ∈ l) :
    ∃ w, l = beforeLastHyphen l ++ '-' :: w ∧ '-' ∉ w := by
  have hrev : '-' ∈ l.reverse := by simpa using h
  obtain ⟨r, hr⟩ := dropWhile_ne_hyphen_cons hrev
  have hb : beforeLastHyphen l = r.reverse := by
    unfold beforeLastHyphen
    rw [if_pos h, hr]
    rfl
  have base := List.takeWhile_append_dropWhile (fun c => c ≠ '-') l.reverse
  have h2 := congrArg List.reverse base
  simp only [List.reverse_append, List.reverse_reverse] at h2
  rw [hr] at h2
  refine ⟨(l.reverse.takeWhile (fun c => c ≠ '-')).reverse, ?_, ?_⟩
  · have h3 : ('-' :: r).reverse ++ (l.reverse.takeWhile (fun c => c ≠ '-')).reverse
        = r.reverse ++ '-' :: (l.reverse.takeWhile (fun c => c ≠ '-')).reverse := by
      rw [List.reverse_cons, List.append_assoc]
      rfl
    rw [hb, ← h3, h2]
  · intro hw
    have h3 : '-' ∈ l.reverse.takeWhile (fun c => c ≠ '-') := by
      simpa using hw
    have h4 := List.mem_takeWhile_imp h3
    simp at h4

theorem beforeLastHyphen_isPrefixOf (l : List Char) : beforeLastHyphen l <+: l := by
  by_cases h : '-' ∈ l
  · obtain ⟨w, hw, _⟩ := beforeLastHyphen_decomp h
    exact ⟨'-' :: w, hw.symm⟩
  · rw [beforeLastHyphen_eq_self h]

theorem chain'_of_prefixOf {R : Char → Char → Prop} {l r : List Char}
    (h : l.Chain' R) (hp : r <+: l) : r.Chain' R :=
  List.Chain'.prefix h hp

theorem valid_facts_of_truncate {t : List Char} (n : Nat)
    (hK : ∀ c ∈ t, isKeep c = true) (hD : NoDouble t)
    (hH : ∀ c, t.head? = some c → c ≠ '-')
    (h8 : beforeLastHyphen (t.take n) ≠ []) :
    (∀ c ∈ beforeLastHyphen (t.take n), isKeep c = true) ∧
    NoDouble (beforeLastHyphen (t.take n)) ∧
    (∀ c, (beforeLastHyphen (t.take n)).head? = some c → c ≠ '-') ∧
    (∀ c, (beforeLastHyphen (t.take n)).getLast? = some c → c ≠ '-') := by
  have hpm : beforeLastHyphen (t.take n) <+: t.take n := beforeLastHyphen_isPrefixOf _
  have hmt : t.take n <+: t := take_isPrefix n t
  have hmne : t.take n ≠ [] := by
    intro hnil
    apply h8
    rw [hnil]
    simp [beforeLastHyphen]
  refine ⟨?_, ?_, ?_, ?_⟩
  · intro c hc
    exact hK c (hmt.subset (hpm.subset hc))
  · exact chain'_of_prefixOf (chain'_of_prefixOf hD hmt) hpm
  · intro c hc
    have h1 : (t.take n).head? = some c := by
      rw [prefix_head? hpm h8, hc]
    have h2 : t.head? = some c := by
      rw [prefix_head? hmt hmne, h1]
    exact hH c h2
  · intro c hc hc'
    subst hc'
    by_cases hhm : '-' ∈ t.take n
    · obtain ⟨w, hw, _⟩ := beforeLastHyphen_decomp hhm
      obtain ⟨u, hu⟩ := List.getLast?_eq_some_iff.1 hc
      have hnd : NoDouble (t.take n) := chain'_of_prefixOf hD hmt
      rw [hw, hu] at hnd
      have hsuf : ('-' :: '-' :: w).Chain' (fun a b => ¬(a = '-' ∧ b = '-')) := by
        refine List.Chain'.suffix hnd ⟨u, ?_⟩
        simp
      have h5 := (List.chain'_cons'.1 hsuf).1 '-' (by simp)
      exact h5 ⟨rfl, rfl⟩
    · rw [beforeLastHyphen_eq_self hhm] at hc
      obtain ⟨u, hu⟩ := List.getLast?_eq_some_iff.1 hc
      exact hhm (by rw [hu]; simp)

theorem sanitize_valid_cases (text : List Char) (n : Nat) :
    sanitize_filename text n = fallbackStem ∨
      (sanitize_filename text n ≠ [] ∧
       (∀ c ∈ sanitize_filename text n, isKeep c = true) ∧
       NoDouble (sanitize_filename text n) ∧
       (∀ c, (sanitize_filename text n).head? = some c → c ≠ '-') ∧
       (∀ c, (sanitize_filename text n).getLast? = some c → c ≠ '-')) := by
  by_cases h8 : (if n < (preTruncate text).length
      then beforeLastHyphen ((preTruncate text).take n) else preTruncate text) = []
  · left
    simp only [sanitize_filename]
    rw [if_pos h8]
  · right
    have hs : sanitize_filename text n =
        (if n < (preTruncate text).length
         then beforeLastHyphen ((preTruncate text).take n) else preTruncate text) := by
      simp only [sanitize_filename]
      rw [if_neg h8]
    by_cases htr : n < (preTruncate text).length
    · rw [if_pos htr] at hs h8
      have facts := valid_facts_of_truncate n (fun c hc => preTruncate_subset text hc)
        (preTruncate_noDouble text) (fun c hc => preTruncate_head?_ne text hc) h8
      rw [hs]
      exact ⟨h8, facts.1, facts.2.1, facts.2.2.1, facts.2.2.2⟩
    · rw [if_neg htr] at hs h8
      rw [hs]
      exact ⟨h8, fun c hc => preTruncate_subset text hc, preTruncate_noDouble text,
        fun c hc => preTruncate_head?_ne text hc, fun c hc => preTruncate_getLast?_ne text hc⟩

theorem stemMatch_of_facts : ∀ (N : Nat) (l : List Char), l.length ≤ N → l ≠ [] →
    (∀ c ∈ l, isKeep c = true) → NoDouble l →
    (∀ c, l.head? = some c → c ≠ '-') → (∀ c, l.getLast? = some c → c ≠ '-') →
    StemMatch l := by
  intro N
  induction N with
  | zero =>
    intro l hlen hne _ _ _ _
    cases l with
    | nil => exact absurd rfl hne
    | cons a t => simp at hlen
  | succ N ih =>
    intro l hlen hne hK hD hH hL
    obtain ⟨a, t, rfl⟩ : ∃ a t, l = a :: t := by
      cases l with
      | nil => exact absurd rfl hne
      | cons a t => exact ⟨a, t, rfl⟩
    have ha : isAlnumLower a = true := by
      have h1 := hH a rfl
      have h2 := hK a (List.mem_cons_self a t)
      rw [isKeep, Bool.or_eq_true] at h2
      rcases h2 with h2 | h2
      · exact h2
      · exact absurd (of_decide_eq_true h2) h1
    have hsplit := List.takeWhile_append_dropWhile isAlnumLower (a :: t)
    have hsne : (a :: t).takeWhile isAlnumLower ≠ [] := by
      rw [List.takeWhile_cons_of_pos ha]
      exact List.cons_ne_nil _ _
    have hsmem : ∀ c ∈ (a :: t).takeWhile isAlnumLower, isAlnumLower c = true :=
      fun c hc => List.mem_takeWhile_imp hc
    cases hr : (a :: t).dropWhile isAlnumLower with
    | nil =>
      rw [hr, List.append_nil] at hsplit
      rw [← hsplit]
      exact StemMatch.single _ hsne hsmem
    | cons c' r2 =>
      have hc'1 : isAlnumLower c' = false := head?_dropWhile_ne (by rw [hr]; rfl)
      have hc'2 : isKeep c' = true := by
        refine hK c' ?_
        rw [← hsplit, hr]
        exact List.mem_append_right _ (List.mem_cons_self _ _)
      have hc' : c' = '-' := by
        rw [isKeep, Bool.or_eq_true, hc'1] at hc'2
        rcases hc'2 with h2 | h2
        · cases h2
        · exact of_decide_eq_true h2
      subst hc'
      rw [hr] at hsplit
      have hr2ne : r2 ≠ [] := by
        intro hnil
        subst hnil
        have hlast : (a :: t).getLast? = some '-' := by
          rw [← hsplit, List.getLast?_append_of_ne_nil _ (List.cons_ne_nil '-' [])]
          rfl
        exact hL '-' hlast rfl
      have hsufD : ('-' :: r2).Chain' (fun a b => ¬(a = '-' ∧ b = '-')) :=
        List.Chain'.suffix hD ⟨(a :: t).takeWhile isAlnumLower, hsplit⟩
      have hr2 : StemMatch r2 := by
        refine ih r2 ?_ hr2ne ?_ ?_ ?_ ?_
        · have hlen2 := congrArg List.length hsplit
          simp only [List.length_append, List.length_cons] at hlen2
          have hs1 : 1 ≤ ((a :: t).takeWhile isAlnumLower).length := by
            cases hs : (a :: t).takeWhile isAlnumLower with
            | nil => exact absurd hs hsne
            | cons x xs => simp
          simp only [List.length_cons] at hlen
          omega
        · intro c hc
          refine hK c ?_
          rw [← hsplit]
          exact List.mem_append_right _ (List.mem_cons_of_mem _ hc)
        · exact (List.chain'_cons'.1 hsufD).2
        · intro c hc hceq
          subst hceq
          exact (List.chain'_cons'.1 hsufD).1 '-' (by simp [hc]) ⟨rfl, rfl⟩
        · intro c hc
          refine hL c ?_
          rw [← hsplit, List.getLast?_append_of_ne_nil _ (List.cons_ne_nil '-' r2)]
          cases r2 with
          | nil => exact absurd rfl hr2ne
          | cons y ys => rw [List.getLast?_cons_cons]; exact hc
      rw [← hsplit]
      exact StemMatch.group _ r2 hsne hsmem hr2

/-- C1: for every input text and every maxLength, the sanitizer (a total
Lean function, so it cannot raise) returns a non-empty string that either
matches the regular expression ^[a-z0-9]+(-[a-z0-9]+)*$ — read here as the
StemMatch grammar: lowercase letters and digits with single interior
hyphens, no leading or trailing hyphen — or equals the fallback literal
"screenshot". -/
theorem C1_sanitize_total_valid (text : List Char) (maxLength : Nat) :
    sanitize_filename text maxLength ≠ [] ∧
      (StemMatch (sanitize_filename text maxLength) ∨
       sanitize_filename text maxLength = fallbackStem) := by
  rcases sanitize_valid_cases text maxLength with h | ⟨hne, hK, hD, hH, hL⟩
  · exact ⟨by rw [h]; decide, Or.inr h⟩
  · exact ⟨hne, Or.inl (stemMatch_of_facts (sanitize_filename text maxLength).length _
      le_rfl hne hK hD hH hL)⟩

theorem C1_witness :
    sanitize_filename "Hello World!".data 60 ≠ [] ∧
      (StemMatch (sanitize_filename "Hello World!".data 60) ∨
       sanitize_filename "Hello World!".data 60 = fallbackStem) :=
  C1_sanitize_total_valid "Hello World!".data 60

/-- C4 counterexample: on the spec's example input the sanitizer does not
return "slack-dm-with-john"; the anchored prefix deletion applies only once
(removing "here is "), so "the filename is" survives into the stem. -/
theorem C4_counterexample :
    sanitize_filename "  Here is the filename is: \"Slack DM_with John!!\"  ".data 60 ≠
      "slack-dm-with-john".data := by decide

/-- C4 amended: on the spec's example input the sanitizer returns exactly
"the-filename-is-slack-dm-with-john". -/
theorem C4_amended :
    sanitize_filename "  Here is the filename is: \"Slack DM_with John!!\"  ".data 60 =
      "the-filename-is-slack-dm-with-john".data := by decide

/-- C8 amended: the output length is at most maxLength except that the
10-character fallback "screenshot" is returned whenever the computed stem
is empty, even when 10 exceeds maxLength; hence the bound is
max maxLength 10. -/
theorem C8_length_bound (text : List Char) (maxLength : Nat) :
    (sanitize_filename text maxLength).length ≤ max maxLength 10 := by
  simp only [sanitize_filename]
  by_cases h8 : (if maxLength < (preTruncate text).length
      then beforeLastHyphen ((preTruncate text).take maxLength) else preTruncate text) = []
  · rw [if_pos h8]
    have hf : fallbackStem.length = 10 := by decide
    rw [hf]
    exact Nat.le_max_right _ 10
  · rw [if_neg h8]
    by_cases htr : maxLength < (preTruncate text).length
    · rw [if_pos htr]
      have h1 := (beforeLastHyphen_isPrefixOf ((preTruncate text).take maxLength)).length_le
      have h2 : ((preTruncate text).take maxLength).length ≤ maxLength := by
        rw [List.length_take]
        exact Nat.min_le_left _ _
      exact le_trans (le_trans h1 h2) (Nat.le_max_left _ _)
    · rw [if_neg htr]
      exact le_trans (Nat.le_of_not_lt htr) (Nat.le_max_left _ _)

/-- C8 counterexample: at the empty text and maxLength 5 the sanitizer
returns the 10-character fallback, exceeding maxLength. -/
theorem C8_counterexample : ¬((sanitize_filename [] 5).length ≤ 5) := by decide

/-- C9 amended: when steps 1-7 produce a stem longer than maxLength, the
result is the maxLength-character cut pulled back to the last hyphen
boundary — it is a hyphen-boundary-aligned prefix of the full stem, never
splitting a segment — and when the truncated prefix contains no hyphen the
result is the plain cut, except that the empty cut (maxLength = 0) falls
back to "screenshot". -/
theorem C9_truncation (text : List Char) (maxLength : Nat)
    (h : maxLength < (preTruncate text).length) :
    ('-' ∈ (preTruncate text).take maxLength →
       sanitize_filename text maxLength =
         beforeLastHyphen ((preTruncate text).take maxLength) ∧
       ∃ rest, preTruncate text = sanitize_filename text maxLength ++ '-' :: rest) ∧
    ('-' ∉ (preTruncate text).take maxLength →
       sanitize_filename text maxLength =
         (if maxLength = 0 then fallbackStem else (preTruncate text).take maxLength)) := by
  constructor
  · intro hmem
    have hmne : (preTruncate text).take maxLength ≠ [] := by
      intro hnil; rw [hnil] at hmem; cases hmem
    obtain ⟨w, hw, hwno⟩ := beforeLastHyphen_decomp hmem
    have hbne : beforeLastHyphen ((preTruncate text).take maxLength) ≠ [] := by
      intro hnil
      rw [hnil, List.nil_append] at hw
      have h1 : ((preTruncate text).take maxLength).head? = some '-' := by rw [hw]; rfl
      have h2 : (preTruncate text).head? = some '-' := by
        rw [prefix_head? (take_isPrefix maxLength _) hmne, h1]
      exact preTruncate_head?_ne text h2 rfl
    have hs : sanitize_filename text maxLength =
        beforeLastHyphen ((preTruncate text).take maxLength) := by
      simp only [sanitize_filename]
      rw [if_pos h, if_neg hbne]
    refine ⟨hs, ⟨w ++ (preTruncate text).drop maxLength, ?_⟩⟩
    rw [hs]
    calc preTruncate text
        = (preTruncate text).take maxLength ++ (preTruncate text).drop maxLength :=
          (List.take_append_drop _ _).symm
      _ = (beforeLastHyphen ((preTruncate text).take maxLength) ++ '-' :: w)
            ++ (preTruncate text).drop maxLength := by rw [← hw]
      _ = beforeLastHyphen ((preTruncate text).take maxLength) ++
            ('-' :: (w ++ (preTruncate text).drop maxLength)) := by simp
  · intro hnot
    have hself := beforeLastHyphen_eq_self hnot
    by_cases h0 : maxLength = 0
    · subst h0
      simp only [sanitize_filename]
      rw [if_pos h]
      simp [beforeLastHyphen]
    · have htne : (preTruncate text).take maxLength ≠ [] := by
        intro hnil
        have hlen := congrArg List.length hnil
        rw [List.length_take] at hlen
        simp only [List.length_nil] at hlen
        omega
      simp only [sanitize_filename]
      rw [if_pos h, hself, if_neg htne, if_neg h0]

set_option maxRecDepth 4000 in
theorem C9_truncation_witness :
    60 < (preTruncate (List.replicate 200 'a')).length ∧
    sanitize_filename (List.replicate 200 'a') 60 = List.replicate 60 'a' := by
  refine ⟨by decide, ?_⟩
  have h9 := (C9_truncation (List.replicate 200 'a') 60 (by decide)).2 (by decide)
  rw [h9]
  decide

/-- C9 counterexample: at text "ab" and maxLength 0, steps 1-7 produce "ab"
(longer than 0) and the truncated prefix has no hyphen, yet the result is
the fallback "screenshot" rather than the plain length-0 cut. -/
theorem C9_counterexample :
    0 < (preTruncate "ab".data).length ∧ '-' ∉ (preTruncate "ab".data).take 0 ∧
      sanitize_filename "ab".data 0 ≠ (preTruncate "ab".data).take 0 := by decide

theorem digitVal_digitChar {d : Nat} (h : d < 10) :
    digitVal (Nat.digitChar d) = d := by
  interval_cases d <;> decide

theorem isDigit_digitChar {d : Nat} (h : d < 10) :
    (Nat.digitChar d).isDigit = true := by
  interval_cases d <;> decide

theorem strVal_append_singleton (l : List Char) (c : Char) :
    strVal (l ++ [c]) = 10 * strVal l + digitVal c := by
  simp [strVal, List.foldl_append]

theorem toDigitsCore_acc (fuel : Nat) : ∀ (n : Nat) (ds : List Char),
    Nat.toDigitsCore 10 fuel n ds = Nat.toDigitsCore 10 fuel n [] ++ ds := by
  induction fuel with
  | zero => intro n ds; simp [Nat.toDigitsCore]
  | succ fuel ih =>
    intro n ds
    simp only [Nat.toDigitsCore]
    by_cases hz : n / 10 = 0
    · rw [if_pos hz, if_pos hz]
      rfl
    · rw [if_neg hz, if_neg hz, ih (n / 10) (Nat.digitChar (n % 10) :: ds),
        ih (n / 10) [Nat.digitChar (n % 10)]]
      simp

theorem toDigitsCore_spec : ∀ (fuel n : Nat), n < fuel →
    strVal (Nat.toDigitsCore 10 fuel n []) = n ∧
    Nat.toDigitsCore 10 fuel n [] ≠ [] ∧
    (∀ c ∈ Nat.toDigitsCore 10 fuel n [], c.isDigit = true) := by
  intro fuel
  induction fuel with
  | zero => intro n h; exact absurd h (Nat.not_lt_zero n)
  | succ fuel ih =>
    intro n h
    by_cases hz : n / 10 = 0
    · have hn : n < 10 := by omega
      have he : Nat.toDigitsCore 10 (fuel + 1) n [] = [Nat.digitChar (n % 10)] := by
        simp [Nat.toDigitsCore, hz]
      rw [he]
      have hmod : n % 10 = n := Nat.mod_eq_of_lt hn
      refine ⟨?_, by simp, ?_⟩
      · rw [hmod]
        simp [strVal, digitVal_digitChar hn]
      · intro c hc
        simp only [List.mem_singleton] at hc
        subst hc
        exact isDigit_digitChar (by omega)
    · have he : Nat.toDigitsCore 10 (fuel + 1) n [] =
          Nat.toDigitsCore 10 fuel (n / 10) [] ++ [Nat.digitChar (n % 10)] := by
        simp only [Nat.toDigitsCore]
        rw [if_neg hz, toDigitsCore_acc]
      have hlt : n / 10 < fuel := by omega
      obtain ⟨ihv, ihne, ihd⟩ := ih (n / 10) hlt
      rw [he]
      refine ⟨?_, by simp, ?_⟩
      · rw [strVal_append_singleton, ihv, digitVal_digitChar (by omega)]
        omega
      · intro c hc
        rcases List.mem_append.1 hc with hc | hc
        · exact ihd c hc
        · simp only [List.mem_singleton] at hc
          subst hc
          exact isDigit_digitChar (by omega)

theorem strVal_natChars (n : Nat) : strVal (natChars n) = n :=
  (toDigitsCore_spec (n + 1) n (Nat.lt_succ_self n)).1

theorem natChars_ne_nil (n : Nat) : natChars n ≠ [] :=
  (toDigitsCore_spec (n + 1) n (Nat.lt_succ_self n)).2.1

theorem natChars_digits (n : Nat) : ∀ c ∈ natChars n, c.isDigit = true :=
  (toDigitsCore_spec (n + 1) n (Nat.lt_succ_self n)).2.2

theorem natChars_injective {a b : Nat} (h : natChars a = natChars b) : a = b := by
  have ha := strVal_natChars a
  have hb := strVal_natChars b
  rw [← ha, ← hb, h]

theorem natChars_length_le {n e : Nat} (h0 : 0 < e) (h : n < 10 ^ e) :
    (natChars n).length ≤ e := by
  have hr := Nat.repr_length n e h0 h
  simpa [Nat.repr, natChars, Nat.toDigits, String.length, List.asString] using hr

theorem padNum_length (w n : Nat) (h : (natChars n).length ≤ w) :
    (padNum w n).length = w := by
  simp only [padNum, List.length_append, List.length_replicate]
  omega

theorem padNum_digits (w n : Nat) : ∀ c ∈ padNum w n, c.isDigit = true := by
  intro c hc
  rcases List.mem_append.1 hc with hc | hc
  · rw [List.eq_of_mem_replicate hc]
    decide
  · exact natChars_digits n c hc

theorem exists_len_two {l : List Char} (h : l.length = 2) : ∃ a b, l = [a, b] := by
  cases l with
  | nil => simp at h
  | cons a l1 =>
    cases l1 with
    | nil => simp at h
    | cons b l2 =>
      cases l2 with
      | nil => exact ⟨a, b, rfl⟩
      | cons c l3 => simp at h

theorem exists_len_four {l : List Char} (h : l.length = 4) : ∃ a b c d, l = [a, b, c, d] := by
  cases l with
  | nil => simp at h
  | cons a l1 =>
    obtain ⟨b, c, d, h2⟩ : ∃ b c d, l1 = [b, c, d] := by
      cases l1 with
      | nil => simp at h
      | cons b l2 =>
        cases l2 with
        | nil => simp at h
        | cons c l3 =>
          cases l3 with
          | nil => simp at h
          | cons d l4 =>
            cases l4 with
            | nil => exact ⟨b, c, d, rfl⟩
            | cons e l5 => simp at h
    exact ⟨a, b, c, d, by rw [h2]⟩

theorem matches_renderDate (d : PyDate) (hy : d.year ≤ 9999) (hm : d.month ≤ 99)
    (hd : d.day ≤ 99) (r : List Char) :
    matchesProcessedPattern (renderDate d ++ '_' :: r) = true := by
  have hy4 : (padNum 4 d.year).length = 4 :=
    padNum_length 4 _ (natChars_length_le (by omega) (by omega))
  have hm2 : (padNum 2 d.month).length = 2 :=
    padNum_length 2 _ (natChars_length_le (by omega) (by omega))
  have hd2 : (padNum 2 d.day).length = 2 :=
    padNum_length 2 _ (natChars_length_le (by omega) (by omega))
  obtain ⟨y1, y2, y3, y4, hys⟩ := exists_len_four hy4
  obtain ⟨m1, m2, hms⟩ := exists_len_two hm2
  obtain ⟨d1, d2, hds⟩ := exists_len_two hd2
  have hdy1 : y1.isDigit = true := padNum_digits 4 d.year y1 (by rw [hys]; simp)
  have hdy2 : y2.isDigit = true := padNum_digits 4 d.year y2 (by rw [hys]; simp)
  have hdy3 : y3.isDigit = true := padNum_digits 4 d.year y3 (by rw [hys]; simp)
  have hdy4 : y4.isDigit = true := padNum_digits 4 d.year y4 (by rw [hys]; simp)
  have hdm1 : m1.isDigit = true := padNum_digits 2 d.month m1 (by rw [hms]; simp)
  have hdm2 : m2.isDigit = true := padNum_digits 2 d.month m2 (by rw [hms]; simp)
  have hdd1 : d1.isDigit = true := padNum_digits 2 d.day d1 (by rw [hds]; simp)
  have hdd2 : d2.isDigit = true := padNum_digits 2 d.day d2 (by rw [hds]; simp)
  rw [renderDate, hys, hms, hds]
  simp only [List.cons_append, List.nil_append, List.append_assoc]
  simp [matchesProcessedPattern, hdy1, hdy2, hdy3, hdy4, hdm1, hdm2, hdd1, hdd2]

theorem renderDate_no_dot (d : PyDate) : '.' ∉ renderDate d := by
  intro hc
  have hdig : ∀ c ∈ renderDate d, c.isDigit = true ∨ c = '-' := by
    intro c hcm
    rw [renderDate] at hcm
    rcases List.mem_append.1 hcm with h1 | h1
    · exact Or.inl (padNum_digits 4 d.year c h1)
    · rcases List.mem_cons.1 h1 with h2 | h2
      · exact Or.inr h2
      · rcases List.mem_append.1 h2 with h3 | h3
        · exact Or.inl (padNum_digits 2 d.month c h3)
        · rcases List.mem_cons.1 h3 with h4 | h4
          · exact Or.inr h4
          · exact Or.inl (padNum_digits 2 d.day c h4)
  rcases hdig '.' hc with h1 | h1
  · exact absurd h1 (by decide)
  · exact absurd h1 (by decide)

theorem take_append_ge {p q : List Char} {i : Nat} (h : p.length ≤ i) :
    (p ++ q).take i = p ++ q.take (i - p.length) := by
  induction p generalizing i with
  | nil => simp
  | cons a t ih =>
    cases i with
    | zero => simp at h
    | succ i =>
      simp only [List.cons_append, List.take_succ_cons, List.length_cons]
      rw [ih (by simpa using h)]
      simp [Nat.succ_sub_succ]

theorem takeWhile_append_of_stop {l₁ l₂ : List Char} {p : Char → Bool}
    (h : ∃ x ∈ l₁, p x = false) : (l₁ ++ l₂).takeWhile p = l₁.takeWhile p := by
  induction l₁ with
  | nil =>
    obtain ⟨x, hx, _⟩ := h
    cases hx
  | cons a t ih =>
    by_cases hpa : p a = true
    · rw [List.cons_append, List.takeWhile_cons_of_pos hpa, List.takeWhile_cons_of_pos hpa]
      have h2 : ∃ x ∈ t, p x = false := by
        obtain ⟨x, hx, hpx⟩ := h
        rcases List.mem_cons.1 hx with rfl | hx2
        · rw [hpa] at hpx; cases hpx
        · exact ⟨x, hx2, hpx⟩
      rw [ih h2]
    · rw [List.cons_append, List.takeWhile_cons_of_neg hpa, List.takeWhile_cons_of_neg hpa]

theorem takeWhile_length_lt (p : Char → Bool) {l : List Char} {x : Char}
    (hx : x ∈ l) (hpx : p x = false) : (l.takeWhile p).length < l.length := by
  induction l with
  | nil => cases hx
  | cons a t ih =>
    by_cases hpa : p a = true
    · rw [List.takeWhile_cons_of_pos hpa]
      have h2 : x ∈ t := by
        rcases List.mem_cons.1 hx with rfl | h3
        · rw [hpa] at hpx; cases hpx
        · exact h3
      simpa using ih h2
    · rw [List.takeWhile_cons_of_neg hpa]
      simp

theorem pathStem_append_of_no_dot {p : List Char} (q : List Char) (hp : '.' ∉ p) :
    ∃ s, pathStem (p ++ q) = p ++ s := by
  unfold pathStem splitExt
  by_cases h : '.' ∈ p ++ q
  · rw [if_pos h]
    have hq : '.' ∈ q := by
      rcases List.mem_append.1 h with h1 | h1
      · exact absurd h1 hp
      · exact h1
    have hrev : (p ++ q).reverse = q.reverse ++ p.reverse := by simp
    have hafter : (p ++ q).reverse.takeWhile (fun c => c ≠ '.')
        = q.reverse.takeWhile (fun c => c ≠ '.') := by
      rw [hrev]
      exact takeWhile_append_of_stop ⟨'.', by simpa using hq, by simp⟩
    have hlt : (q.reverse.takeWhile (fun c => c ≠ '.')).length < q.length := by
      have hxm : ('.' : Char) ∈ q.reverse := by simpa using hq
      have := takeWhile_length_lt (fun c => c ≠ '.') hxm (by simp)
      simpa using this
    by_cases h2 : 0 < (p ++ q).length - 1 -
        ((p ++ q).reverse.takeWhile (fun c => c ≠ '.')).length ∧
        (p ++ q).length - 1 -
        ((p ++ q).reverse.takeWhile (fun c => c ≠ '.')).length < (p ++ q).length - 1
    · rw [if_pos h2]
      have hge : p.length ≤ (p ++ q).length - 1 -
          ((p ++ q).reverse.takeWhile (fun c => c ≠ '.')).length := by
        rw [hafter]
        have hqpos : 0 < q.length := List.length_pos_of_mem hq
        simp only [List.length_append]
        omega
      refine ⟨q.take ((p ++ q).length - 1 -
        ((p ++ q).reverse.takeWhile (fun c => c ≠ '.')).length - p.length), ?_⟩
      rw [take_append_ge hge]
    · rw [if_neg h2]
      exact ⟨q, rfl⟩
  · rw [if_neg h]
    exact ⟨q, rfl⟩

theorem pathStem_append_pathSuffix (name : List Char) :
    pathStem name ++ pathSuffix name = name := by
  unfold pathStem pathSuffix splitExt
  by_cases h : '.' ∈ name
  · rw [if_pos h]
    by_cases h2 : 0 < name.length - 1 -
        (name.reverse.takeWhile (fun c => c ≠ '.')).length ∧
        name.length - 1 -
        (name.reverse.takeWhile (fun c => c ≠ '.')).length < name.length - 1
    · rw [if_pos h2]
      exact List.take_append_drop _ name
    · rw [if_neg h2]
      simp
  · rw [if_neg h]
    simp

theorem counterCand_inj {parent stem sfx : List Char} {k1 k2 : Nat}
    (h : counterCand parent stem sfx k1 = counterCand parent stem sfx k2) :
    k1 = k2 := by
  have hn : stem ++ ('-' :: (natChars k1 ++ sfx)) = stem ++ ('-' :: (natChars k2 ++ sfx)) :=
    congrArg FsPath.name h
  have h2 := List.append_cancel_left hn
  have h3 : natChars k1 ++ sfx = natChars k2 ++ sfx := by
    injection h2
  exact natChars_injective (List.append_cancel_right h3)

theorem findFree_none_mem {fs : List FsPath} {parent stem sfx : List Char} :
    ∀ (fuel k : Nat), findFree fs parent stem sfx fuel k = none →
    ∀ j, k ≤ j → j < k + fuel → counterCand parent stem sfx j ∈ fs := by
  intro fuel
  induction fuel with
  | zero =>
    intro k _ j h1 h2
    omega
  | succ fuel ih =>
    intro k hnone j h1 h2
    simp only [findFree] at hnone
    by_cases hc : counterCand parent stem sfx k ∈ fs
    · rw [if_pos hc] at hnone
      by_cases hj : j = k
      · exact hj ▸ hc
      · exact ih (k + 1) hnone j (by omega) (by omega)
    · rw [if_neg hc] at hnone
      cases hnone

theorem findFree_some (fs : List FsPath) (parent stem sfx : List Char) :
    ∃ p, findFree fs parent stem sfx (fs.length + 1) 1 = some p := by
  cases hf : findFree fs parent stem sfx (fs.length + 1) 1 with
  | some p => exact ⟨p, rfl⟩
  | none =>
    exfalso
    have hmem := findFree_none_mem _ _ hf
    have hsub : (List.range' 1 (fs.length + 1)).map (counterCand parent stem sfx) ⊆ fs := by
      intro x hx
      rw [List.mem_map] at hx
      obtain ⟨j, hj, rfl⟩ := hx
      rw [List.mem_range'] at hj
      obtain ⟨i, hi, rfl⟩ := hj
      exact hmem _ (by omega) (by omega)
    have hnd : ((List.range' 1 (fs.length + 1)).map (counterCand parent stem sfx)).Nodup := by
      refine (List.nodup_range' 1 (fs.length + 1)).map ?_
      intro a b hab
      exact counterCand_inj hab
    have hlen := (hnd.subperm hsub).length_le
    simp at hlen

theorem findFree_some_spec {fs : List FsPath} {parent stem sfx : List Char} :
    ∀ (fuel k : Nat) (p : FsPath), findFree fs parent stem sfx fuel k = some p →
    ∃ j, k ≤ j ∧ p = counterCand parent stem sfx j ∧ p ∉ fs := by
  intro fuel
  induction fuel with
  | zero => intro k p h; cases h
  | succ fuel ih =>
    intro k p h
    simp only [findFree] at h
    by_cases hc : counterCand parent stem sfx k ∈ fs
    · rw [if_pos hc] at h
      obtain ⟨j, hj1, hj2, hj3⟩ := ih (k + 1) p h
      exact ⟨j, by omega, hj2, hj3⟩
    · rw [if_neg hc] at h
      injection h with h2
      exact ⟨k, le_refl k, h2.symm, h2 ▸ hc⟩

theorem two_mem_length {α : Type} {a b : α} {l : List α} (ha : a ∈ l) (hb : b ∈ l)
    (hab : a ≠ b) : 2 ≤ l.length := by
  have hnd : ([a, b] : List α).Nodup := by simp [hab]
  have hsub : ([a, b] : List α) ⊆ l := by
    intro x hx
    rcases List.mem_cons.1 hx with rfl | hx2
    · exact ha
    · rcases List.mem_cons.1 hx2 with rfl | hx3
      · exact hb
      · cases hx3
  simpa using (hnd.subperm hsub).length_le

/-- C6: get_unique_path returns the candidate unchanged when no file exists
at it; and when the candidate and its "-1"-suffixed variant both exist but
the "-2" variant does not, it returns the "-2" variant — the counter starts
at 1 and increments, re-checking existence of each attempt against the
directory. -/
theorem C6_get_unique_path (fs : List FsPath) (base : FsPath) :
    (base ∉ fs → get_unique_path fs base = base) ∧
    (base ∈ fs →
      counterCand base.parent (pathStem base.name) (pathSuffix base.name) 1 ∈ fs →
      counterCand base.parent (pathStem base.name) (pathSuffix base.name) 2 ∉ fs →
      get_unique_path fs base =
        counterCand base.parent (pathStem base.name) (pathSuffix base.name) 2) := by
  constructor
  · intro h
    unfold get_unique_path
    rw [if_neg h]
  · intro h1 h2 h3
    have hne : base ≠ counterCand base.parent (pathStem base.name) (pathSuffix base.name) 1 := by
      intro he
      have hn := congrArg FsPath.name he
      have hsx : pathStem base.name ++ pathSuffix base.name =
          pathStem base.name ++ ('-' :: (natChars 1 ++ pathSuffix base.name)) := by
        rw [pathStem_append_pathSuffix]
        exact hn
      have hc := List.append_cancel_left hsx
      have hlen := congrArg List.length hc
      simp only [List.length_cons, List.length_append] at hlen
      omega
    have hge : 2 ≤ fs.length := two_mem_length h1 h2 hne
    obtain ⟨m, hm⟩ : ∃ m, fs.length + 1 = m + 2 := ⟨fs.length - 1, by omega⟩
    have hstep1 : findFree fs base.parent (pathStem base.name) (pathSuffix base.name)
        (m + 2) 1 =
        if counterCand base.parent (pathStem base.name) (pathSuffix base.name) 1 ∈ fs
        then findFree fs base.parent (pathStem base.name) (pathSuffix base.name) (m + 1) 2
        else some (counterCand base.parent (pathStem base.name) (pathSuffix base.name) 1) :=
      rfl
    have hstep2 : findFree fs base.parent (pathStem base.name) (pathSuffix base.name)
        (m + 1) 2 =
        if counterCand base.parent (pathStem base.name) (pathSuffix base.name) 2 ∈ fs
        then findFree fs base.parent (pathStem base.name) (pathSuffix base.name) m 3
        else some (counterCand base.parent (pathStem base.name) (pathSuffix base.name) 2) :=
      rfl
    unfold get_unique_path
    rw [if_pos h1, hm, hstep1, if_pos h2, hstep2, if_neg h3]

theorem C6_witness :
    get_unique_path [⟨"d".data, "a.png".data⟩, ⟨"d".data, "a-1.png".data⟩]
        ⟨"d".data, "a.png".data⟩ = ⟨"d".data, "a-2.png".data⟩ ∧
    get_unique_path [] ⟨"d".data, "a.png".data⟩ = ⟨"d".data, "a.png".data⟩ := by
  constructor
  · have h := (C6_get_unique_path [⟨"d".data, "a.png".data⟩, ⟨"d".data, "a-1.png".data⟩]
        ⟨"d".data, "a.png".data⟩).2 (by decide) (by decide) (by decide)
    rw [h]
    decide
  · exact (C6_get_unique_path [] ⟨"d".data, "a.png".data⟩).1 (by decide)

/-- Shape of the resolver's result: parent preserved, name either unchanged
or stem-counter-suffix, and the result absent from the directory. -/
theorem unique_path_shape (fs : List FsPath) (base : FsPath) :
    (get_unique_path fs base).parent = base.parent ∧
    (get_unique_path fs base = base ∨
      ∃ k, 1 ≤ k ∧ (get_unique_path fs base).name =
        pathStem base.name ++ ('-' :: (natChars k ++ pathSuffix base.name))) ∧
    get_unique_path fs base ∉ fs := by
  by_cases h : base ∈ fs
  · obtain ⟨p, hp⟩ := findFree_some fs base.parent (pathStem base.name)
      (pathSuffix base.name)
    have he : get_unique_path fs base = p := by
      unfold get_unique_path
      rw [if_pos h, hp]
    obtain ⟨j, hj1, hj2, hj3⟩ := findFree_some_spec _ _ p hp
    subst hj2
    rw [he]
    exact ⟨rfl, Or.inr ⟨j, hj1, rfl⟩, hj3⟩
  · have he : get_unique_path fs base = base := by
      unfold get_unique_path
      rw [if_neg h]
    rw [he]
    exact ⟨rfl, Or.inl rfl, h⟩

/-- C10 amended: get_unique_path preserves the parent directory; its result
is the candidate itself, or a path whose name is the candidate's stem
followed by a hyphen, the decimal digits of a counter k ≥ 1, and the
candidate's suffix; and the returned path does not exist in the directory
at the time of return. (Re-parsing the returned name with pathlib's
stem/suffix rules can split it differently — see the counterexample — so
the stem/suffix clause holds of the constructed name, not of re-parsing.) -/
theorem C10_unique_path_shape (fs : List FsPath) (base : FsPath) :
    (get_unique_path fs base).parent = base.parent ∧
    (get_unique_path fs base = base ∨
      ∃ k, 1 ≤ k ∧ (get_unique_path fs base).name =
        pathStem base.name ++ ('-' :: (natChars k ++ pathSuffix base.name))) ∧
    get_unique_path fs base ∉ fs :=
  unique_path_shape fs base

theorem C10_witness :
    (get_unique_path [⟨"d".data, "a.png".data⟩] ⟨"d".data, "a.png".data⟩).parent =
      (⟨"d".data, "a.png".data⟩ : FsPath).parent ∧
    (get_unique_path [⟨"d".data, "a.png".data⟩] ⟨"d".data, "a.png".data⟩ =
        ⟨"d".data, "a.png".data⟩ ∨
      ∃ k, 1 ≤ k ∧
        (get_unique_path [⟨"d".data, "a.png".data⟩] ⟨"d".data, "a.png".data⟩).name =
          pathStem "a.png".data ++ ('-' :: (natChars k ++ pathSuffix "a.png".data))) ∧
    get_unique_path [⟨"d".data, "a.png".data⟩] ⟨"d".data, "a.png".data⟩ ∉
      [⟨"d".data, "a.png".data⟩] :=
  C10_unique_path_shape [⟨"d".data, "a.png".data⟩] ⟨"d".data, "a.png".data⟩

/-- C10 counterexample: for the existing candidate named "a." (empty
pathlib suffix, stem "a."), the resolver returns the name "a.-1", whose
pathlib suffix is ".-1" — not the candidate's suffix — and whose pathlib
stem is "a", which is neither "a." nor "a." plus a counter. -/
theorem C10_counterexample :
    pathSuffix (get_unique_path [⟨"d".data, "a.".data⟩] ⟨"d".data, "a.".data⟩).name ≠
      pathSuffix "a.".data := by decide

theorem renderDate_underscore_no_dot (date : PyDate) :
    '.' ∉ renderDate date ++ ['_'] := by
  intro h
  rcases List.mem_append.1 h with h1 | h1
  · exact renderDate_no_dot date h1
  · rw [List.mem_singleton] at h1
    exact absurd h1 (by decide)

theorem matches_renameTarget (fs : List FsPath) (p : FsPath) (desc : List Char)
    (date : PyDate) (hy : date.year ≤ 9999) (hmo : date.month ≤ 99)
    (hda : date.day ≤ 99) :
    matchesProcessedPattern (renameTarget fs p desc date).name = true := by
  unfold renameTarget
  have hq : candidateName date (sanitize_filename desc 60) (lowerChars (pathSuffix p.name)) =
      (renderDate date ++ ['_']) ++
        (sanitize_filename desc 60 ++ lowerChars (pathSuffix p.name)) := by
    simp [candidateName]
  have hshape := unique_path_shape fs ⟨p.parent,
    candidateName date (sanitize_filename desc 60) (lowerChars (pathSuffix p.name))⟩
  rcases hshape.2.1 with hcase | ⟨k, hk, hname⟩
  · rw [hcase]
    exact matches_renderDate date hy hmo hda _
  · obtain ⟨s, hs⟩ := pathStem_append_of_no_dot
      (sanitize_filename desc 60 ++ lowerChars (pathSuffix p.name))
      (renderDate_underscore_no_dot date)
    have hname2 : (get_unique_path fs ⟨p.parent,
        candidateName date (sanitize_filename desc 60) (lowerChars (pathSuffix p.name))⟩).name =
        pathStem (candidateName date (sanitize_filename desc 60)
          (lowerChars (pathSuffix p.name))) ++
        ('-' :: (natChars k ++ pathSuffix (candidateName date (sanitize_filename desc 60)
          (lowerChars (pathSuffix p.name))))) := hname
    have hps : pathStem (candidateName date (sanitize_filename desc 60)
        (lowerChars (pathSuffix p.name))) = (renderDate date ++ ['_']) ++ s := by
      rw [hq]
      exact hs
    rw [hname2, hps, List.append_assoc, List.append_assoc]
    exact matches_renderDate date hy hmo hda _

/-- C2: every rename performed by the pipeline targets a name matching the
processed pattern (four digits, hyphen, two digits, hyphen, two digits,
underscore) — the date prefix survives the optional collision counter and
the lowercased extension — and any name matching that pattern is skipped by
the watcher's handler and excluded from the batch driver's listing, so a
renamed file is never selected for reprocessing. -/
theorem C2_processed_names (fs : List FsPath) (p : FsPath)
    (api : Except Unit (List Char)) (date : PyDate) (dryRun renameFails : Bool)
    (hy : date.year ≤ 9999) (hmo : date.month ≤ 99) (hda : date.day ≤ 99) :
    (∀ old target, FsAction.rename old target ∈
        (rename_screenshot fs p api date dryRun renameFails).actions →
      matchesProcessedPattern target.name = true) ∧
    (∀ processed q stillThere outcome, matchesProcessedPattern q.name = true →
      handle_file processed q stillThere outcome = (processed, [])) ∧
    (∀ entries f, matchesProcessedPattern f.path.name = true →
      f ∉ process_existing_list entries) := by
  refine ⟨?_, ?_, ?_⟩
  · intro old target hmem
    simp only [rename_screenshot] at hmem
    by_cases hdesc : analyze_image api = []
    · rw [if_pos hdesc] at hmem
      simp at hmem
    · rw [if_neg hdesc] at hmem
      by_cases hdry : dryRun = true
      · rw [if_pos hdry] at hmem
        simp at hmem
      · rw [if_neg hdry] at hmem
        by_cases hrf : renameFails = true
        · rw [if_pos hrf] at hmem
          simp at hmem
        · rw [if_neg hrf] at hmem
          simp only [List.mem_cons, List.mem_singleton] at hmem
          rcases hmem with h1 | h1 | h1
          · injection h1 with ho ht
            rw [ht]
            exact matches_renameTarget fs p (analyze_image api) date hy hmo hda
          · exact FsAction.noConfusion h1
          · cases h1
  · intro processed q st o hq
    unfold handle_file
    by_cases h1 : isAllowedImage q.name = true
    · rw [if_neg (by simp [h1])]
      by_cases h2 : q ∈ processed
      · rw [if_pos h2]
      · rw [if_neg h2, if_pos hq]
    · have h1' : isAllowedImage q.name = false := by rwa [Bool.not_eq_true] at h1
      rw [if_pos (by rw [h1']; rfl)]
  · intro entries f hf hmem
    simp only [process_existing_list, List.mem_filter] at hmem
    have h2 := hmem.2
    simp [hf] at h2

theorem C2_witness : matchesProcessedPattern "2026-10-12_hello.png".data = true := by
  have h := (C2_processed_names [] ⟨"d".data, "x.png".data⟩ (Except.ok "hello".data)
      ⟨2026, 10, 12⟩ false false (by decide) (by decide) (by decide)).1
      ⟨"d".data, "x.png".data⟩
      ⟨"d".data, "2026-10-12_hello.png".data⟩ (by decide)
  exact h

/-- C5: when the inference collaborator raises, or returns an empty
description, the pipeline returns false and performs no filesystem action:
the directory is returned unchanged, so the file remains at its original
path, unmodified. -/
theorem C5_failure_leaves_file (fs : List FsPath) (p : FsPath)
    (api : Except Unit (List Char)) (date : PyDate) (dryRun renameFails : Bool)
    (h : api = Except.error () ∨ api = Except.ok []) :
    (rename_screenshot fs p api date dryRun renameFails).success = false ∧
    (rename_screenshot fs p api date dryRun renameFails).fs = fs ∧
    (rename_screenshot fs p api date dryRun renameFails).actions = [] ∧
    (p ∈ fs → p ∈ (rename_screenshot fs p api date dryRun renameFails).fs) := by
  have he : rename_screenshot fs p api date dryRun renameFails = ⟨false, fs, []⟩ := by
    rcases h with rfl | rfl <;> rfl
  rw [he]
  exact ⟨rfl, rfl, rfl, fun hp => hp⟩

theorem C5_witness :
    (rename_screenshot [⟨"d".data, "x.png".data⟩] ⟨"d".data, "x.png".data⟩
        (Except.error ()) ⟨2026, 10, 12⟩ false false).success = false ∧
    (rename_screenshot [⟨"d".data, "x.png".data⟩] ⟨"d".data, "x.png".data⟩
        (Except.error ()) ⟨2026, 10, 12⟩ false false).fs = [⟨"d".data, "x.png".data⟩] ∧
    (rename_screenshot [⟨"d".data, "x.png".data⟩] ⟨"d".data, "x.png".data⟩
        (Except.error ()) ⟨2026, 10, 12⟩ false false).actions = [] ∧
    ⟨"d".data, "x.png".data⟩ ∈ (rename_screenshot [⟨"d".data, "x.png".data⟩]
      ⟨"d".data, "x.png".data⟩ (Except.error ()) ⟨2026, 10, 12⟩ false false).fs := by
  have h := C5_failure_leaves_file [⟨"d".data, "x.png".data⟩] ⟨"d".data, "x.png".data⟩
    (Except.error ()) ⟨2026, 10, 12⟩ false false (Or.inl rfl)
  exact ⟨h.1, h.2.1, h.2.2.1, h.2.2.2 (by decide)⟩

/-- C7: with a non-empty description and dryRun set, the pipeline returns
true and performs no filesystem mutation: the directory is unchanged, the
action trace is just the report of the computed target, and in particular
no rename and no metadata write occurs. -/
theorem C7_dry_run_no_mutation (fs : List FsPath) (p : FsPath) (desc : List Char)
    (date : PyDate) (renameFails : Bool) (h : desc ≠ []) :
    (rename_screenshot fs p (Except.ok desc) date true renameFails).success = true ∧
    (rename_screenshot fs p (Except.ok desc) date true renameFails).fs = fs ∧
    (rename_screenshot fs p (Except.ok desc) date true renameFails).actions =
      [FsAction.report (renameTarget fs p desc date)] ∧
    (∀ old target, FsAction.rename old target ∉
      (rename_screenshot fs p (Except.ok desc) date true renameFails).actions) ∧
    (∀ q comment, FsAction.writeMetadata q comment ∉
      (rename_screenshot fs p (Except.ok desc) date true renameFails).actions) := by
  have he : rename_screenshot fs p (Except.ok desc) date true renameFails =
      ⟨true, fs, [FsAction.report (renameTarget fs p desc date)]⟩ := by
    simp only [rename_screenshot, analyze_image]
    rw [if_neg h]
    simp
  rw [he]
  refine ⟨rfl, rfl, rfl, ?_, ?_⟩
  · intro old target hmem
    rw [List.mem_singleton] at hmem
    exact FsAction.noConfusion hmem
  · intro q comment hmem
    rw [List.mem_singleton] at hmem
    exact FsAction.noConfusion hmem

theorem C7_witness :
    (rename_screenshot [⟨"d".data, "x.png".data⟩] ⟨"d".data, "x.png".data⟩
        (Except.ok "hello".data) ⟨2026, 10, 12⟩ true false).success = true ∧
    (rename_screenshot [⟨"d".data, "x.png".data⟩] ⟨"d".data, "x.png".data⟩
        (Except.ok "hello".data) ⟨2026, 10, 12⟩ true false).fs =
      [⟨"d".data, "x.png".data⟩] ∧
    (rename_screenshot [⟨"d".data, "x.png".data⟩] ⟨"d".data, "x.png".data⟩
        (Except.ok "hello".data) ⟨2026, 10, 12⟩ true false).actions =
      [FsAction.report ⟨"d".data, "2026-10-12_hello.png".data⟩] := by
  have h := C7_dry_run_no_mutation [⟨"d".data, "x.png".data⟩] ⟨"d".data, "x.png".data⟩
    "hello".data ⟨2026, 10, 12⟩ false (by decide)
  refine ⟨h.1, h.2.1, ?_⟩
  rw [h.2.2.1]
  decide

theorem handle_file_cases (processed : List FsPath) (p : FsPath) (st o : Bool) :
    (handle_file processed p st o = (processed, [])) ∨
    (p ∉ processed ∧ handle_file processed p st o =
      (p :: processed, [WAction.add p, WAction.debounce, WAction.invoke p])) ∨
    (p ∉ processed ∧ handle_file processed p st o =
      (p :: processed, [WAction.add p, WAction.debounce, WAction.skipMissing])) := by
  unfold handle_file
  by_cases h1 : isAllowedImage p.name = true
  · rw [if_neg (by simp [h1])]
    by_cases h2 : p ∈ processed
    · rw [if_pos h2]
      exact Or.inl rfl
    · rw [if_neg h2]
      by_cases h3 : matchesProcessedPattern p.name = true
      · rw [if_pos h3]
        exact Or.inl rfl
      · rw [if_neg h3]
        cases st with
        | true =>
          rw [if_pos rfl]
          exact Or.inr (Or.inl ⟨h2, rfl⟩)
        | false =>
          rw [if_neg (by simp)]
          exact Or.inr (Or.inr ⟨h2, rfl⟩)
  · have h1' : isAllowedImage p.name = false := by rwa [Bool.not_eq_true] at h1
    rw [if_pos (by rw [h1']; rfl)]
    exact Or.inl rfl

theorem handle_file_fst_const (processed : List FsPath) (p : FsPath)
    (st o st' o' : Bool) :
    (handle_file processed p st o).1 = (handle_file processed p st' o').1 := by
  unfold handle_file
  by_cases h1 : (!isAllowedImage p.name) = true
  · rw [if_pos h1, if_pos h1]
  · rw [if_neg h1, if_neg h1]
    by_cases h2 : p ∈ processed
    · rw [if_pos h2, if_pos h2]
    · rw [if_neg h2, if_neg h2]
      by_cases h3 : matchesProcessedPattern p.name = true
      · rw [if_pos h3, if_pos h3]
      · rw [if_neg h3, if_neg h3]
        cases st <;> cases st' <;> rfl

theorem countInvocations_nil (p : FsPath) : countInvocations [] p = 0 := rfl

theorem countInvocations_append (a b : List WAction) (p : FsPath) :
    countInvocations (a ++ b) p = countInvocations a p + countInvocations b p := by
  simp [countInvocations, List.countP_append]

theorem countInvocations_invoke_acts (q p : FsPath) :
    countInvocations [WAction.add q, WAction.debounce, WAction.invoke q] p =
      if q = p then 1 else 0 := by
  by_cases h : q = p
  · subst h
    simp [countInvocations, List.countP_cons, List.countP_nil]
  · simp [countInvocations, List.countP_cons, List.countP_nil, h]

theorem countInvocations_skip_acts (q p : FsPath) :
    countInvocations [WAction.add q, WAction.debounce, WAction.skipMissing] p = 0 := by
  simp [countInvocations, List.countP_cons, List.countP_nil]

theorem runSession_count_bound : ∀ (events : List WatchEvent) (processed : List FsPath)
    (p : FsPath), countInvocations (runSession processed events) p ≤
      (if p ∈ processed then 0 else 1) := by
  intro events
  induction events with
  | nil =>
    intro processed p
    simp [runSession, countInvocations]
  | cons e es ih =>
    intro processed p
    simp only [runSession]
    rw [countInvocations_append]
    rcases handle_file_cases processed e.path e.stillThere e.outcome with
      h | ⟨hnp, h⟩ | ⟨hnp, h⟩
    · have e1 : (handle_file processed e.path e.stillThere e.outcome).1 = processed := by
        rw [h]
      have e2 : (handle_file processed e.path e.stillThere e.outcome).2 = [] := by
        rw [h]
      rw [e1, e2, countInvocations_nil]
      have h2 := ih processed p
      omega
    · have e1 : (handle_file processed e.path e.stillThere e.outcome).1 =
          e.path :: processed := by rw [h]
      have e2 : (handle_file processed e.path e.stillThere e.outcome).2 =
          [WAction.add e.path, WAction.debounce, WAction.invoke e.path] := by rw [h]
      rw [e1, e2, countInvocations_invoke_acts]
      have h2 := ih (e.path :: processed) p
      by_cases hqp : e.path = p
      · subst hqp
        rw [if_pos rfl]
        rw [if_pos (List.mem_cons_self _ _)] at h2
        rw [if_neg hnp]
        omega
      · rw [if_neg hqp]
        by_cases hp : p ∈ processed
        · rw [if_pos hp]
          rw [if_pos (List.mem_cons_of_mem _ hp)] at h2
          omega
        · rw [if_neg hp]
          have hc : p ∉ e.path :: processed := by
            intro hx
            rcases List.mem_cons.1 hx with rfl | hx2
            · exact hqp rfl
            · exact hp hx2
          rw [if_neg hc] at h2
          omega
    · have e1 : (handle_file processed e.path e.stillThere e.outcome).1 =
          e.path :: processed := by rw [h]
      have e2 : (handle_file processed e.path e.stillThere e.outcome).2 =
          [WAction.add e.path, WAction.debounce, WAction.skipMissing] := by rw [h]
      rw [e1, e2, countInvocations_skip_acts]
      have h2 := ih (e.path :: processed) p
      by_cases hp : p ∈ processed
      · rw [if_pos hp]
        rw [if_pos (List.mem_cons_of_mem _ hp)] at h2
        omega
      · rw [if_neg hp]
        by_cases hc : p ∈ e.path :: processed
        · rw [if_pos hc] at h2
          omega
        · rw [if_neg hc] at h2
          omega

/-- C3: whenever the handler acts on a path at all, its first action is
adding the path to the processed set — before the debounce sleep and before
any pipeline invocation — and the path is in the resulting set; the
resulting set does not depend on the post-debounce existence check or on
the pipeline's outcome; and over any session starting from the empty set
the pipeline is invoked at most once per distinct path, even if the
pipeline fails or the file is deleted during the debounce window and later
recreated under the same path. -/
theorem C3_at_most_once :
    (∀ (processed : List FsPath) (p : FsPath) (stillThere outcome : Bool),
      ((handle_file processed p stillThere outcome).2 ≠ [] →
        (handle_file processed p stillThere outcome).2.head? =
          some (WAction.add p) ∧
        p ∈ (handle_file processed p stillThere outcome).1) ∧
      (∀ stillThere' outcome' : Bool,
        (handle_file processed p stillThere outcome).1 =
          (handle_file processed p stillThere' outcome').1) ∧
      (WAction.invoke p ∈ (handle_file processed p stillThere outcome).2 →
        (handle_file processed p stillThere outcome).2 =
          [WAction.add p, WAction.debounce, WAction.invoke p])) ∧
    (∀ (events : List WatchEvent) (p : FsPath),
      countInvocations (runSession [] events) p ≤ 1) := by
  constructor
  · intro processed p st o
    refine ⟨?_, ?_, ?_⟩
    · intro hne
      rcases handle_file_cases processed p st o with h | ⟨hnp, h⟩ | ⟨hnp, h⟩
      · rw [h] at hne
        exact absurd rfl hne
      · rw [h]
        exact ⟨rfl, List.mem_cons_self _ _⟩
      · rw [h]
        exact ⟨rfl, List.mem_cons_self _ _⟩
    · intro st' o'
      exact handle_file_fst_const processed p st o st' o'
    · intro hmem
      rcases handle_file_cases processed p st o with h | ⟨hnp, h⟩ | ⟨hnp, h⟩
      · rw [h] at hmem
        cases hmem
      · rw [h]
      · rw [h] at hmem
        simp at hmem
  · intro events p
    have h := runSession_count_bound events [] p
    simpa using h

theorem C3_witness :
    countInvocations (runSession []
      [⟨⟨"d".data, "x.png".data⟩, false, true⟩,
       ⟨⟨"d".data, "x.png".data⟩, true, true⟩]) ⟨"d".data, "x.png".data⟩ ≤ 1 ∧
    (handle_file [] ⟨"d".data, "x.png".data⟩ true true).2.head? =
      some (WAction.add ⟨"d".data, "x.png".data⟩) := by
  constructor
  · exact C3_at_most_once.2 _ _
  · exact ((C3_at_most_once.1 [] ⟨"d".data, "x.png".data⟩ true true).1 (by decide)).1
